import Mathlib

/-!
Verification of the Open Australian Legal Corpus creator's orchestration
engine: a shallow embedding of the data model (`data.py`), the fetch-with-
retry primitive (`scraper.py`) and the corpus consistency engine
(`creator.py`), together with theorems about the engine's invariants.

Strings from the Python side are modelled as Lean `String`s; where Python
slicing matters the underlying `List Char` is used, which is a faithful
model of Python's per-character string operations.  Raw corpus lines are
modelled by an arbitrary type `L` with a decoding function
`L → Option Document` (msgspec's `document_decoder` either returns a
`Document` or raises `DecodeError`).  Timestamps and backoff durations are
modelled as rationals.
-/

namespace OALC

/-- A request (`data.py`, class `Request`): target path, method, payload,
headers and text encoding.  `frozendict` payload/headers are modelled as
association lists; equality is structural, as in `msgspec.Struct`. -/
structure Request where
  path : String
  method : String := "get"
  data : List (String × String) := []
  headers : List (String × String) := []
  encoding : String := "utf-8"
deriving DecidableEq, Repr

/-- The test of `Entry.format_id` on the underlying character lists:
`version_id[:len(source) + 1] == f'\x7bsource\x7d:'` decides whether the id is
already prefixed; otherwise `f'\x7bsource\x7d:\x7bversion_id\x7d'` is returned
(`data.py` lines 93-101). -/
def formatIdData (version_id source : List Char) : List Char :=
  if version_id.take (source.length + 1) = source ++ [':'] then version_id
  else source ++ ':' :: version_id

/-- The classmethod `Entry.format_id` (`data.py` lines 93-101), lifted to `String`. -/
def format_id (version_id source : String) : String :=
  ⟨formatIdData version_id.data source.data⟩

/-- An entry in a document index (`data.py`, class `Entry`). -/
structure Entry where
  request : Request
  version_id : String
  source : String
  type : Option String := none
  jurisdiction : Option String := none
  title : Option String := none
deriving DecidableEq, Repr

/-- Construction of an `Entry`: `__post_init__` replaces the stored
`version_id` with `format_id(version_id, source)` (`data.py` lines 89-91). -/
def mkEntry (request : Request) (version_id source : String)
    (type jurisdiction title : Option String) : Entry :=
  { request := request
    version_id := format_id version_id source
    source := source
    type := type
    jurisdiction := jurisdiction
    title := title }

/-- One indexed batch (`data.py`, class `Entries`): the originating request,
the entries it yielded and the timestamp at which it was indexed. -/
structure Entries where
  request : Request
  entries : List Entry
  when_indexed : ℚ
deriving DecidableEq

/-- A corpus document (`data.py`, class `Document`, lines 110-120): exactly
the eight fields declared there, in declaration order. -/
structure Document where
  version_id : String
  type : String
  jurisdiction : String
  source : String
  citation : String
  url : String
  when_scraped : String
  text : String
deriving DecidableEq, Repr

/-- The JSON object produced for a `Document` by `msgspec.json.Encoder`:
one key per struct field, in declaration order (`data.py` lines 110-120).
This is the record shape of one line of `corpus.jsonl`. -/
def documentFields (d : Document) : List (String × String) :=
  [("version_id", d.version_id),
   ("type", d.type),
   ("jurisdiction", d.jurisdiction),
   ("source", d.source),
   ("citation", d.citation),
   ("url", d.url),
   ("when_scraped", d.when_scraped),
   ("text", d.text)]

/-- Python `dict` insertion (`entries[k] = v` semantics of the dict
comprehension in `creator.py` lines 232-238): if the key is present its
value is replaced in place, otherwise the pair is appended. -/
def dictInsert (m : List (String × Entry)) (k : String) (v : Entry) :
    List (String × Entry) :=
  if k ∈ m.map Prod.fst then m.map (fun p => if p.1 = k then (k, v) else p)
  else m ++ [(k, v)]

/-- The flattened entry map of `creator.py` lines 230-238: document entries
keyed by `version_id`, later occurrences overwriting earlier ones. -/
def flattenEntries (es : List Entry) : List (String × Entry) :=
  es.foldl (fun m e => dictInsert m e.version_id e) []

/-- The state threaded through the corpus rewrite loop of `creator.py`
lines 240-257: the lines written to the temporary file, the accumulated
`corpus_version_ids` list, and the number of corruption warnings logged. -/
structure RewriteState (L : Type) where
  kept : List L
  ids : List String
  warnings : Nat
deriving Repr

/-- One iteration of the corpus rewrite loop (`creator.py` lines 244-256):
decode the line; on `DecodeError` log a warning and continue; otherwise keep
the original line (and record its id) exactly when its `version_id` has not
been kept before and it is either discoverable in the flattened entry map or
belongs to a source outside this run's scrapers. -/
def rewriteStep {L : Type} (decode : L → Option Document)
    (em : List (String × Entry)) (scrapers : List String)
    (s : RewriteState L) (line : L) : RewriteState L :=
  match decode line with
  | none => { s with warnings := s.warnings + 1 }
  | some doc =>
    if doc.version_id ∉ s.ids ∧
        (doc.version_id ∈ em.map Prod.fst ∨ doc.source ∉ scrapers) then
      { kept := s.kept ++ [line], ids := s.ids ++ [doc.version_id],
        warnings := s.warnings }
    else s

/-- The corpus rewrite of `creator.py` lines 240-257: stream the corpus
lines through `rewriteStep`, starting from an empty temporary file and an
empty `corpus_version_ids` list. -/
def corpusRewrite {L : Type} (decode : L → Option Document)
    (em : List (String × Entry)) (scrapers : List String)
    (corpus : List L) : RewriteState L :=
  corpus.foldl (rewriteStep decode em scrapers) ⟨[], [], 0⟩

/-- The missing entries of `creator.py` line 264: flattened entries whose
`version_id` does not appear among the surviving corpus ids. -/
def missingEntries (em : List (String × Entry)) (ids : List String) :
    List (String × Entry) :=
  em.filter (fun p => p.1 ∉ ids)

/-- The append phase of `creator.py` lines 277-283: fetch each missing
entry's document and append every non-`None` result to the corpus. -/
def appendedDocs (get_doc : Entry → Option Document)
    (missing : List (String × Entry)) : List Document :=
  missing.filterMap (fun p => get_doc p.2)

/-- The default `stop_after_waiting` of `Scraper.__init__` (`scraper.py`
line 68): `15 * 60` seconds. -/
def stop_after_waiting : ℚ := 15 * 60

/-- The default `max_wait` of `Scraper.__init__` (`scraper.py` line 71):
`2.5 * 60` seconds. -/
def max_wait : ℚ := 2.5 * 60

/-- The default `wait_base` of `Scraper.__init__` (`scraper.py` line 74). -/
def wait_base : ℚ := 1.25

/-- The state threaded through the retry loops of `Scraper.get` and
`Scraper.get_doc`: the attempt counter and the cumulative waited time. -/
structure RetryState where
  attempt : Nat
  elapsed : ℚ
deriving DecidableEq, Repr

/-- The `except` handler shared verbatim by `Scraper.get` (`scraper.py`
lines 174-194) and `Scraper.get_doc` (lines 108-128): if the cumulative
elapsed wait exceeds the stop threshold the caught error is re-raised
(`none`); otherwise the attempt counter is bumped and the loop sleeps
`min (base ^ attempt / 2 + jitter) max_wait` seconds, which is added to the
elapsed total. -/
def onRetryError (stop maxw base : ℚ) (s : RetryState) (jitter : ℚ) :
    Option RetryState :=
  if stop < s.elapsed then none
  else
    let attempt := s.attempt + 1
    let wait := base ^ attempt / 2
    let wait2 := wait + jitter
    let wait3 := min wait2 maxw
    some ⟨attempt, s.elapsed + wait3⟩

/-- The `while True` retry loop of `Scraper.get` / `Scraper.get_doc` under
the assumption that every attempt fails with a retryable condition: each
iteration runs the `except` handler with that attempt's jitter; when the
handler re-raises, the loop ends and reports the retry count and the final
elapsed wait.  The loop is given fuel; the retry-bound theorem shows a
fixed fuel always suffices, i.e. the real unfueled loop terminates. -/
def retryLoop (stop maxw base : ℚ) (jit : Nat → ℚ) :
    Nat → RetryState → Option (Nat × ℚ)
  | 0, _ => none
  | fuel + 1, s =>
    match onRetryError stop maxw base s (jit (s.attempt + 1)) with
    | none => some (s.attempt, s.elapsed)
    | some s2 => retryLoop stop maxw base jit fuel s2

/-- A refresh-interval configuration (`timedelta | bool` in the scrapers):
`always` is Python `True` (always refresh), `never` is Python `False`
(never refresh), `interval d` a `timedelta` of `d` seconds. -/
inductive RefreshInterval
  | always
  | never
  | interval (d : ℚ)
deriving DecidableEq, Repr

/-- The age test of the index filter (`creator.py` lines 163-166): a batch
passes when the refresh interval is `False` or its indexing timestamp is
within the interval of `now`.  (`always` is unreachable here: it is handled
before the filter by deleting the whole index.) -/
def keepByAge (policy : RefreshInterval) (now when_indexed : ℚ) : Bool :=
  match policy with
  | .always => false
  | .never => true
  | .interval d => decide (now - when_indexed ≤ d)

/-- The outcome of `Creator._get_unindexed_index_reqs`: the state of the
source's index log file afterwards, whether the log was rewritten, and the
returned set of unindexed requests. -/
structure UnindexedResult where
  fileAfter : Option (List Entries)
  rewritten : Bool
  unindexed : Finset Request

/-- The method `Creator._get_unindexed_index_reqs` (`creator.py` lines 140-173): if
the index log does not exist, all requests are unindexed; if the refresh
policy is `True` the log is deleted and all requests are unindexed;
otherwise the log is filtered to the batches whose request is in the
current discovery-request set and which pass the age test, the log is
rewritten exactly when the filter dropped something, and the unindexed
requests are the discovery requests minus the surviving batches'
requests. -/
def get_unindexed_index_reqs (policy : RefreshInterval) (now : ℚ)
    (file : Option (List Entries)) (index_reqs : Finset Request) :
    UnindexedResult :=
  match file with
  | none => ⟨none, false, index_reqs⟩
  | some index =>
    if policy = .always then ⟨none, false, index_reqs⟩
    else if (index.filter (fun e =>
        decide (e.request ∈ index_reqs) && keepByAge policy now e.when_indexed)).length ≠
          index.length then
      ⟨some (index.filter (fun e =>
          decide (e.request ∈ index_reqs) && keepByAge policy now e.when_indexed)),
        true,
        index_reqs \ ((index.filter (fun e =>
          decide (e.request ∈ index_reqs) && keepByAge policy now e.when_indexed)).map
            (fun e => e.request)).toFinset⟩
    else
      ⟨some index,
        false,
        index_reqs \ ((index.filter (fun e =>
          decide (e.request ∈ index_reqs) && keepByAge policy now e.when_indexed)).map
            (fun e => e.request)).toFinset⟩

/-- A response (`data.py`, class `Response`): a byte buffer annotated with
its declared encoding, content type and HTTP status. -/
structure Response where
  body : String
  encoding : String
  type : String
  status : Int
deriving DecidableEq, Repr

/-- Python call semantics of `Response(...)`: `encoding`, `type` and
`status` are declared as keyword-only parameters without defaults in both
`Response.__new__` and `Response.__init__` (`data.py` lines 46-64), so a
call that omits any of them raises `TypeError`; the raised error is
modelled as the `Except.error` case. -/
def buildResponse (body : String) (encoding type : Option String)
    (status : Option Int) : Except String Response :=
  match encoding, type, status with
  | some e, some t, some st => .ok ⟨body, e, t, st⟩
  | _, _, _ =>
    .error "TypeError: Response() missing required keyword-only arguments"

/-- The `open`-method branch of `Scraper.get` (`scraper.py` lines 138-144):
the local file's bytes are read and `Response` is constructed with only the
`encoding` keyword argument — no `type` and no `status` are supplied. -/
def getOpenBranch (fileBytes : String) (req : Request) : Except String Response :=
  buildResponse fileBytes (some req.encoding) none none

/-- A sample request used to evaluate the theorems on concrete inputs. -/
def sampleReq : Request := ⟨"https://example.com/a", "get", [], [], "utf-8"⟩

/-- A sample corpus document of source `s` with `version_id` `s:1`. -/
def sampleDocA : Document :=
  ⟨"s:1", "primary_legislation", "new_south_wales", "s", "A (NSW)", "u1", "w", "ta"⟩

/-- A sample corpus document of source `s` with `version_id` `s:2`. -/
def sampleDocB : Document :=
  ⟨"s:2", "primary_legislation", "new_south_wales", "s", "B (NSW)", "u2", "w", "tb"⟩

/-- A sample index entry pointing at `sampleDocA`. -/
def sampleEntryA : Entry := ⟨sampleReq, "s:1", "s", none, none, none⟩

/-- A sample index entry pointing at `sampleDocB`. -/
def sampleEntryB : Entry := ⟨sampleReq, "s:2", "s", none, none, none⟩

/-- A sample corpus decoder over lines modelled as naturals: line `0`
decodes to `sampleDocA`, line `2` to `sampleDocB`, anything else is
malformed. -/
def sampleDecode : Nat → Option Document :=
  fun l => if l = 0 then some sampleDocA else if l = 2 then some sampleDocB else none

/-- A sample document fetcher that materialises a document carrying its
entry's `version_id`, as the scrapers' `make_doc` calls do. -/
def sampleFetch : Entry → Option Document :=
  fun e => some { sampleDocA with version_id := e.version_id }

/-- A second sample request, used as a stale index-log request. -/
def sampleReqB : Request := ⟨"https://example.com/b", "get", [], [], "utf-8"⟩

/-- A sample index log: one fresh batch for `sampleReq` (indexed at 95) and
one batch whose request `sampleReqB` is absent from the discovery set. -/
def sampleIndex : List Entries := [⟨sampleReq, [], 95⟩, ⟨sampleReqB, [], 50⟩]

/-- Insertion via `dictInsert` leaves the key list unchanged when the key is present and
appends the key otherwise. -/
theorem dictInsert_map_fst (m : List (String × Entry)) (k : String) (v : Entry) :
    (dictInsert m k v).map Prod.fst =
      if k ∈ m.map Prod.fst then m.map Prod.fst else m.map Prod.fst ++ [k] := by
  unfold dictInsert
  by_cases h : k ∈ m.map Prod.fst
  · rw [if_pos h, if_pos h, List.map_map]
    refine List.map_congr_left (fun p _ => ?_)
    by_cases hp : p.1 = k <;> simp [hp]
  · rw [if_neg h, if_neg h, List.map_append]
    simp

/-- Insertion via `dictInsert` preserves distinctness of the keys. -/
theorem dictInsert_keys_nodup {m : List (String × Entry)} {k : String} {v : Entry}
    (h : (m.map Prod.fst).Nodup) : ((dictInsert m k v).map Prod.fst).Nodup := by
  rw [dictInsert_map_fst]
  by_cases hk : k ∈ m.map Prod.fst
  · rwa [if_pos hk]
  · rw [if_neg hk]
    exact List.Nodup.append h (List.nodup_singleton k)
      (fun a ha hb => hk (by rwa [List.mem_singleton.mp hb] at ha))

/-- Insertion via `dictInsert` preserves the invariant that each pair's key is its
entry's `version_id`, provided the inserted pair satisfies it. -/
theorem dictInsert_fst_eq {m : List (String × Entry)} {k : String} {v : Entry}
    (hm : ∀ p ∈ m, p.1 = p.2.version_id) (hk : k = v.version_id) :
    ∀ p ∈ dictInsert m k v, p.1 = p.2.version_id := by
  intro p hp
  unfold dictInsert at hp
  by_cases h : k ∈ m.map Prod.fst
  · rw [if_pos h] at hp
    obtain ⟨q, hq, hqp⟩ := List.mem_map.mp hp
    by_cases hqk : q.1 = k
    · rw [if_pos hqk] at hqp
      rw [← hqp]
      exact hk
    · rw [if_neg hqk] at hqp
      rw [← hqp]
      exact hm q hq
  · rw [if_neg h] at hp
    rcases List.mem_append.mp hp with h1 | h1
    · exact hm p h1
    · rw [List.mem_singleton.mp h1]
      exact hk

/-- The flattened entry map has pairwise-distinct keys: exactly one entry
per `version_id`. -/
theorem flattenEntries_keys_nodup (es : List Entry) :
    ((flattenEntries es).map Prod.fst).Nodup := by
  suffices h : ∀ (m : List (String × Entry)), (m.map Prod.fst).Nodup →
      ((es.foldl (fun m e => dictInsert m e.version_id e) m).map Prod.fst).Nodup by
    exact h [] List.nodup_nil
  induction es with
  | nil => intro m hm; exact hm
  | cons e es ih => intro m hm; exact ih _ (dictInsert_keys_nodup hm)

/-- Every pair in the flattened entry map is keyed by its entry's
`version_id`. -/
theorem flattenEntries_fst_eq (es : List Entry) :
    ∀ p ∈ flattenEntries es, p.1 = p.2.version_id := by
  suffices h : ∀ (m : List (String × Entry)), (∀ p ∈ m, p.1 = p.2.version_id) →
      ∀ p ∈ es.foldl (fun m e => dictInsert m e.version_id e) m, p.1 = p.2.version_id by
    exact h [] (by intro p hp; exact absurd hp (List.not_mem_nil p))
  induction es with
  | nil => intro m hm; exact hm
  | cons e es ih => intro m hm; exact ih _ (dictInsert_fst_eq hm rfl)

/-- The rewrite loop never records the same `version_id` twice. -/
theorem rewrite_foldl_ids_nodup {L : Type} (decode : L → Option Document)
    (em : List (String × Entry)) (scrapers : List String) (corpus : List L)
    (s : RewriteState L) (h : s.ids.Nodup) :
    (corpus.foldl (rewriteStep decode em scrapers) s).ids.Nodup := by
  induction corpus generalizing s with
  | nil => exact h
  | cons l ls ih =>
    rw [List.foldl_cons]
    refine ih _ ?_
    cases hd : decode l with
    | none => simp only [rewriteStep, hd]; exact h
    | some doc =>
      simp only [rewriteStep, hd]
      by_cases hc : doc.version_id ∉ s.ids ∧
          (doc.version_id ∈ em.map Prod.fst ∨ doc.source ∉ scrapers)
      · rw [if_pos hc]
        exact List.Nodup.append h (List.nodup_singleton _)
          (fun a ha hb => hc.1 (by rwa [List.mem_singleton.mp hb] at ha))
      · rwa [if_neg hc]

/-- The ids accumulated by the rewrite loop are exactly the `version_id`s of
the decoded survivors, in order. -/
theorem rewrite_foldl_kept_ids {L : Type} (decode : L → Option Document)
    (em : List (String × Entry)) (scrapers : List String) (corpus : List L)
    (s : RewriteState L)
    (h : (s.kept.filterMap decode).map (fun d => d.version_id) = s.ids) :
    ((corpus.foldl (rewriteStep decode em scrapers) s).kept.filterMap decode).map
        (fun d => d.version_id) =
      (corpus.foldl (rewriteStep decode em scrapers) s).ids := by
  induction corpus generalizing s with
  | nil => exact h
  | cons l ls ih =>
    rw [List.foldl_cons]
    refine ih _ ?_
    cases hd : decode l with
    | none => simp only [rewriteStep, hd]; exact h
    | some doc =>
      simp only [rewriteStep, hd]
      by_cases hc : doc.version_id ∉ s.ids ∧
          (doc.version_id ∈ em.map Prod.fst ∨ doc.source ∉ scrapers)
      · rw [if_pos hc]
        simp only [List.filterMap_append, List.map_append, h, List.filterMap_cons, hd,
          List.filterMap_nil, List.map_cons, List.map_nil]
      · rwa [if_neg hc]

/-- Lines already written to the temporary file stay written as the rewrite
loop continues. -/
theorem rewrite_foldl_kept_mem {L : Type} (decode : L → Option Document)
    (em : List (String × Entry)) (scrapers : List String) (corpus : List L)
    (s : RewriteState L) (l : L) (h : l ∈ s.kept) :
    l ∈ (corpus.foldl (rewriteStep decode em scrapers) s).kept := by
  induction corpus generalizing s with
  | nil => exact h
  | cons x xs ih =>
    rw [List.foldl_cons]
    refine ih _ ?_
    cases hd : decode x with
    | none => simp only [rewriteStep, hd]; exact h
    | some doc =>
      simp only [rewriteStep, hd]
      by_cases hc : doc.version_id ∉ s.ids ∧
          (doc.version_id ∈ em.map Prod.fst ∨ doc.source ∉ scrapers)
      · rw [if_pos hc]
        exact List.mem_append.mpr (Or.inl h)
      · rwa [if_neg hc]

/-- The lines written by the rewrite loop form a sublist of the previously
written lines followed by the processed lines. -/
theorem rewrite_foldl_kept_sublist {L : Type} (decode : L → Option Document)
    (em : List (String × Entry)) (scrapers : List String) (corpus : List L)
    (s : RewriteState L) :
    (corpus.foldl (rewriteStep decode em scrapers) s).kept.Sublist (s.kept ++ corpus) := by
  induction corpus generalizing s with
  | nil => rw [List.append_nil]; exact List.Sublist.refl _
  | cons l ls ih =>
    rw [List.foldl_cons]
    refine (ih (rewriteStep decode em scrapers s l)).trans ?_
    have hkept : (rewriteStep decode em scrapers s l).kept.Sublist (s.kept ++ [l]) := by
      cases hd : decode l with
      | none => simp only [rewriteStep, hd]; exact List.sublist_append_left _ _
      | some doc =>
        simp only [rewriteStep, hd]
        by_cases hc : doc.version_id ∉ s.ids ∧
            (doc.version_id ∈ em.map Prod.fst ∨ doc.source ∉ scrapers)
        · rw [if_pos hc]
        · rw [if_neg hc]
          exact List.sublist_append_left _ _
    have h2 := hkept.append_right ls
    rw [List.append_assoc, List.singleton_append] at h2
    exact h2

/-- Every id recorded by the rewrite loop comes from a decodable processed
line (or was recorded before the loop started). -/
theorem rewrite_foldl_ids_src {L : Type} (decode : L → Option Document)
    (em : List (String × Entry)) (scrapers : List String) (corpus : List L)
    (s : RewriteState L) :
    ∀ i ∈ (corpus.foldl (rewriteStep decode em scrapers) s).ids,
      i ∈ s.ids ∨ ∃ l ∈ corpus, ∃ d, decode l = some d ∧ d.version_id = i := by
  induction corpus generalizing s with
  | nil => intro i hi; exact Or.inl hi
  | cons l ls ih =>
    intro i hi
    rw [List.foldl_cons] at hi
    rcases ih (rewriteStep decode em scrapers s l) i hi with h1 | ⟨x, hx, d, hd, hdv⟩
    · cases hd : decode l with
      | none =>
        simp only [rewriteStep, hd] at h1
        exact Or.inl h1
      | some doc =>
        simp only [rewriteStep, hd] at h1
        by_cases hc : doc.version_id ∉ s.ids ∧
            (doc.version_id ∈ em.map Prod.fst ∨ doc.source ∉ scrapers)
        · rw [if_pos hc] at h1
          rcases List.mem_append.mp h1 with h2 | h2
          · exact Or.inl h2
          · exact Or.inr ⟨l, List.mem_cons_self l ls, doc, hd,
              (List.mem_singleton.mp h2).symm⟩
        · rw [if_neg hc] at h1
          exact Or.inl h1
    · exact Or.inr ⟨x, List.mem_cons_of_mem l hx, d, hd, hdv⟩

/-- A run of the rewrite loop over lines that all decode (to `docs`, in
lockstep), whose ids are fresh and pairwise distinct and all discoverable in
the flattened entry map, keeps every line and records every id, in order,
and logs no warning. -/
theorem rewrite_foldl_all_valid {L : Type} (decode : L → Option Document)
    (em : List (String × Entry)) (scrapers : List String) (lines : List L)
    (docs : List Document) (s : RewriteState L)
    (hdec : lines.map decode = docs.map some)
    (hnd : (s.ids ++ docs.map (fun d => d.version_id)).Nodup)
    (hdisc : ∀ d ∈ docs, d.version_id ∈ em.map Prod.fst) :
    lines.foldl (rewriteStep decode em scrapers) s =
      ⟨s.kept ++ lines, s.ids ++ docs.map (fun d => d.version_id), s.warnings⟩ := by
  induction lines generalizing docs s with
  | nil =>
    have hd : docs = [] := by
      cases docs with
      | nil => rfl
      | cons d ds => simp at hdec
    subst hd
    cases s
    simp
  | cons l ls ih =>
    cases docs with
    | nil => simp at hdec
    | cons d ds =>
      simp only [List.map_cons, List.cons.injEq] at hdec
      obtain ⟨hl, hls⟩ := hdec
      have hfresh : d.version_id ∉ s.ids := by
        rcases List.nodup_append.mp hnd with ⟨-, -, hdisj⟩
        intro hmem
        exact hdisj hmem (by simp)
      have hstep : rewriteStep decode em scrapers s l =
          ⟨s.kept ++ [l], s.ids ++ [d.version_id], s.warnings⟩ := by
        simp only [rewriteStep, hl]
        rw [if_pos ⟨hfresh, Or.inl (hdisc d (List.mem_cons_self d ds))⟩]
      rw [List.foldl_cons, hstep]
      have hnd' : ((s.ids ++ [d.version_id]) ++ ds.map (fun d => d.version_id)).Nodup := by
        rw [List.append_assoc, List.singleton_append]
        simpa using hnd
      rw [ih ds _ hls hnd' (fun x hx => hdisc x (List.mem_cons_of_mem d hx))]
      simp

/-- The rewrite loop logs one corruption warning per undecodable line:
processing continues past every decode failure. -/
theorem rewrite_foldl_warnings {L : Type} (decode : L → Option Document)
    (em : List (String × Entry)) (scrapers : List String) (corpus : List L)
    (s : RewriteState L) :
    (corpus.foldl (rewriteStep decode em scrapers) s).warnings =
      s.warnings + (corpus.filter (fun l => (decode l).isNone)).length := by
  induction corpus generalizing s with
  | nil => simp
  | cons l ls ih =>
    rw [List.foldl_cons, ih]
    cases hd : decode l with
    | none =>
      simp only [rewriteStep, hd, List.filter_cons, Option.isNone_none, if_pos,
        List.length_cons]
      omega
    | some doc =>
      have hw : (rewriteStep decode em scrapers s l).warnings = s.warnings := by
        simp only [rewriteStep, hd]
        by_cases hc : doc.version_id ∉ s.ids ∧
            (doc.version_id ∈ em.map Prod.fst ∨ doc.source ∉ scrapers)
        · rw [if_pos hc]
        · rw [if_neg hc]
      rw [hw]
      simp [List.filter_cons, hd]

/-- The `version_id`s of the documents appended by the append phase form a
sublist of the keys of the missing entries they were fetched for, provided
fetching preserves the entry's `version_id`. -/
theorem appendedDocs_ids_sublist (get_doc : Entry → Option Document)
    (missing : List (String × Entry))
    (hk : ∀ p ∈ missing, p.1 = p.2.version_id)
    (hget : ∀ e d, get_doc e = some d → d.version_id = e.version_id) :
    ((appendedDocs get_doc missing).map (fun d => d.version_id)).Sublist
      (missing.map Prod.fst) := by
  induction missing with
  | nil => simp [appendedDocs]
  | cons p ps ih =>
    have ihs := ih (fun q hq => hk q (List.mem_cons_of_mem p hq))
    cases hg : get_doc p.2 with
    | none =>
      simp only [appendedDocs, List.filterMap_cons, hg, List.map_cons]
      exact ihs.cons p.1
    | some d =>
      simp only [appendedDocs, List.filterMap_cons, hg, List.map_cons]
      have : d.version_id = p.1 := by
        rw [hget p.2 d hg, ← hk p (List.mem_cons_self p ps)]
      rw [this]
      exact ihs.cons₂ p.1

/-- Taking `source.length + 1` characters from `source ++ ':' :: rest`
yields exactly `source ++ [':']`. -/
theorem take_append_colon (s v : List Char) :
    (s ++ ':' :: v).take (s.length + 1) = s ++ [':'] := by
  induction s with
  | nil => simp
  | cons a s ih => simpa using ih

/-- C9: `version_id` prefixing is idempotent: the stored `version_id` of a
constructed `Entry` is `format_id version_id source`; `format_id` prepends
`source ++ ":"` exactly when the raw id does not already begin with it and
is a no-op otherwise; `format_id` is idempotent; and every constructed
entry's `version_id` begins with its source name followed by a colon. -/
theorem claim9_format_id_idempotent (r : Request) (v s : String)
    (ty ju ti : Option String) :
    (mkEntry r v s ty ju ti).version_id = format_id v s ∧
    (v.data.take (s.data.length + 1) ≠ s.data ++ [':'] →
      format_id v s = ⟨s.data ++ ':' :: v.data⟩) ∧
    (v.data.take (s.data.length + 1) = s.data ++ [':'] → format_id v s = v) ∧
    format_id (format_id v s) s = format_id v s ∧
    ∃ t, (mkEntry r v s ty ju ti).version_id.data = s.data ++ ':' :: t := by
  refine ⟨rfl, ?_, ?_, ?_, ?_⟩
  · intro h
    simp only [format_id, formatIdData, if_neg h]
  · intro h
    simp only [format_id, formatIdData, if_pos h]
  · by_cases h : v.data.take (s.data.length + 1) = s.data ++ [':']
    · simp only [format_id, formatIdData, if_pos h]
    · simp only [format_id, formatIdData, if_neg h, take_append_colon, if_pos]
  · by_cases h : v.data.take (s.data.length + 1) = s.data ++ [':']
    · refine ⟨v.data.drop (s.data.length + 1), ?_⟩
      simp only [mkEntry, format_id, formatIdData, if_pos h]
      calc v.data = v.data.take (s.data.length + 1) ++ v.data.drop (s.data.length + 1) := by
            rw [List.take_append_drop]
        _ = s.data ++ ':' :: v.data.drop (s.data.length + 1) := by rw [h]; simp
    · exact ⟨v.data, by simp only [mkEntry, format_id, formatIdData, if_neg h]⟩

/-- Witness for C9 at `version_id = "x"`, `source = "src"`: the stored id is
`"src:x"` and re-formatting it is a no-op. -/
theorem claim9_format_id_idempotent_witness :
    format_id "x" "src" = ⟨"src".data ++ ':' :: "x".data⟩ ∧
    format_id (format_id "x" "src") "src" = format_id "x" "src" :=
  ⟨(claim9_format_id_idempotent ⟨"p", "get", [], [], "utf-8"⟩ "x" "src" none none none).2.1
      (by decide),
   (claim9_format_id_idempotent ⟨"p", "get", [], [], "utf-8"⟩ "x" "src" none none none).2.2.2.1⟩

/-- C1: dedup invariant — the flattened entry map holds exactly one entry
per `version_id`; the rewrite keeps at most one surviving line per
`version_id` (first occurrence wins); the surviving documents' ids are
exactly the recorded corpus ids; and, the append phase fetching only
entries whose id is absent from the surviving corpus ids (in any shuffled
order) and each fetch preserving its entry's id, the final corpus holds at
most one document per `version_id`. -/
theorem claim1_dedup_invariant {L : Type} (decode : L → Option Document)
    (es : List Entry) (scrapers : List String) (corpus : List L)
    (get_doc : Entry → Option Document)
    (hget : ∀ e d, get_doc e = some d → d.version_id = e.version_id)
    (missing : List (String × Entry))
    (hperm : missing.Perm (missingEntries (flattenEntries es)
      (corpusRewrite decode (flattenEntries es) scrapers corpus).ids)) :
    ((flattenEntries es).map Prod.fst).Nodup ∧
    (corpusRewrite decode (flattenEntries es) scrapers corpus).ids.Nodup ∧
    ((corpusRewrite decode (flattenEntries es) scrapers corpus).kept.filterMap decode).map
        (fun d => d.version_id) =
      (corpusRewrite decode (flattenEntries es) scrapers corpus).ids ∧
    (((corpusRewrite decode (flattenEntries es) scrapers corpus).kept.filterMap decode ++
        appendedDocs get_doc missing).map (fun d => d.version_id)).Nodup := by
  have hkeys : ((flattenEntries es).map Prod.fst).Nodup := flattenEntries_keys_nodup es
  have hidsnd : (corpusRewrite decode (flattenEntries es) scrapers corpus).ids.Nodup :=
    rewrite_foldl_ids_nodup decode (flattenEntries es) scrapers corpus ⟨[], [], 0⟩
      List.nodup_nil
  have hkid : ((corpusRewrite decode (flattenEntries es) scrapers corpus).kept.filterMap
        decode).map (fun d => d.version_id) =
      (corpusRewrite decode (flattenEntries es) scrapers corpus).ids :=
    rewrite_foldl_kept_ids decode (flattenEntries es) scrapers corpus ⟨[], [], 0⟩ (by simp)
  refine ⟨hkeys, hidsnd, hkid, ?_⟩
  rw [List.map_append, hkid]
  have hmk : ∀ p ∈ missing, p.1 = p.2.version_id := fun p hp =>
    flattenEntries_fst_eq es p (List.mem_of_mem_filter (hperm.mem_iff.mp hp))
  have hsub : ((appendedDocs get_doc missing).map (fun d => d.version_id)).Sublist
      (missing.map Prod.fst) := appendedDocs_ids_sublist get_doc missing hmk hget
  have h1 : (missingEntries (flattenEntries es)
      (corpusRewrite decode (flattenEntries es) scrapers corpus).ids).Sublist
        (flattenEntries es) := by
    unfold missingEntries
    exact List.filter_sublist _
  have hpermk : (missing.map Prod.fst).Perm ((missingEntries (flattenEntries es)
      (corpusRewrite decode (flattenEntries es) scrapers corpus).ids).map Prod.fst) :=
    hperm.map _
  have hmknd : (missing.map Prod.fst).Nodup :=
    hpermk.nodup_iff.mpr ((h1.map Prod.fst).nodup hkeys)
  have happnd : ((appendedDocs get_doc missing).map (fun d => d.version_id)).Nodup :=
    hsub.nodup hmknd
  refine List.Nodup.append hidsnd happnd ?_
  intro x hx hx2
  have hx3 : x ∈ (missingEntries (flattenEntries es)
      (corpusRewrite decode (flattenEntries es) scrapers corpus).ids).map Prod.fst :=
    hpermk.mem_iff.mp (hsub.subset hx2)
  obtain ⟨p, hp, hpx⟩ := List.mem_map.mp hx3
  have hflt := List.mem_filter.mp hp
  have hnotin : p.1 ∉ (corpusRewrite decode (flattenEntries es) scrapers corpus).ids := by
    simpa using hflt.2
  rw [← hpx] at hx
  exact hnotin hx

/-- Witness for C1: a two-entry flattened map and a one-line corpus; the
final corpus (one survivor plus one appended document) has pairwise
distinct `version_id`s. -/
theorem claim1_dedup_invariant_witness :
    (((corpusRewrite sampleDecode (flattenEntries [sampleEntryA, sampleEntryB]) ["s"]
          [0]).kept.filterMap sampleDecode ++
        appendedDocs sampleFetch
          (missingEntries (flattenEntries [sampleEntryA, sampleEntryB])
            (corpusRewrite sampleDecode (flattenEntries [sampleEntryA, sampleEntryB]) ["s"]
              [0]).ids)).map (fun d => d.version_id)).Nodup :=
  (claim1_dedup_invariant sampleDecode [sampleEntryA, sampleEntryB] ["s"] [0] sampleFetch
    (fun e d h => by
      simp only [sampleFetch, Option.some.injEq] at h
      rw [← h])
    _ (List.Perm.refl _)).2.2.2

/-- C2: isolation — a decodable corpus line whose document's source is not
among the run's scrapers, and whose `version_id` was not already seen on an
earlier decodable line, survives the corpus rewrite. -/
theorem claim2_isolation {L : Type} (decode : L → Option Document)
    (em : List (String × Entry)) (scrapers : List String)
    (pre post : List L) (line : L) (doc : Document)
    (hdec : decode line = some doc) (hsrc : doc.source ∉ scrapers)
    (hfr : ∀ l ∈ pre, ∀ d, decode l = some d → d.version_id ≠ doc.version_id) :
    line ∈ (corpusRewrite decode em scrapers (pre ++ line :: post)).kept := by
  unfold corpusRewrite
  rw [List.foldl_append, List.foldl_cons]
  have hfresh : doc.version_id ∉
      (pre.foldl (rewriteStep decode em scrapers) ⟨[], [], 0⟩).ids := by
    intro hmem
    rcases rewrite_foldl_ids_src decode em scrapers pre ⟨[], [], 0⟩ doc.version_id hmem with
      h | ⟨l, hl, d, hd, hdv⟩
    · simp at h
    · exact hfr l hl d hd hdv
  have hstep : rewriteStep decode em scrapers
      (pre.foldl (rewriteStep decode em scrapers) ⟨[], [], 0⟩) line =
      ⟨(pre.foldl (rewriteStep decode em scrapers) ⟨[], [], 0⟩).kept ++ [line],
       (pre.foldl (rewriteStep decode em scrapers) ⟨[], [], 0⟩).ids ++ [doc.version_id],
       (pre.foldl (rewriteStep decode em scrapers) ⟨[], [], 0⟩).warnings⟩ := by
    simp only [rewriteStep, hdec]
    rw [if_pos ⟨hfresh, Or.inr hsrc⟩]
  rw [hstep]
  exact rewrite_foldl_kept_mem decode em scrapers post _ line
    (List.mem_append.mpr (Or.inr (List.mem_singleton.mpr rfl)))

/-- Witness for C2: a line of a foreign source survives a run over other
sources. -/
theorem claim2_isolation_witness :
    (0 : Nat) ∈ (corpusRewrite sampleDecode [] ["other"] [0]).kept :=
  claim2_isolation sampleDecode [] ["other"] [] [] 0 sampleDocA rfl (by decide)
    (fun l hl => absurd hl (List.not_mem_nil l))

/-- C3: corruption tolerance — a corpus of decodable lines with one
malformed line among them loses exactly the malformed line (with one
warning logged) while every valid line survives, their ids being distinct
and discoverable; and in general the rewrite logs one warning per
undecodable line and never aborts (it is a total function of the corpus). -/
theorem claim3_corruption_tolerance {L : Type} (decode : L → Option Document)
    (em : List (String × Entry)) (scrapers : List String)
    (pre post : List L) (bad : L) (preDocs postDocs : List Document)
    (hpre : pre.map decode = preDocs.map some)
    (hpost : post.map decode = postDocs.map some)
    (hbad : decode bad = none)
    (hnd : ((preDocs ++ postDocs).map (fun d => d.version_id)).Nodup)
    (hdisc : ∀ d ∈ preDocs ++ postDocs, d.version_id ∈ em.map Prod.fst) :
    corpusRewrite decode em scrapers (pre ++ bad :: post) =
      ⟨pre ++ post, (preDocs ++ postDocs).map (fun d => d.version_id), 1⟩ ∧
    ∀ corpus : List L, (corpusRewrite decode em scrapers corpus).warnings =
      (corpus.filter (fun l => (decode l).isNone)).length := by
  constructor
  · unfold corpusRewrite
    rw [List.foldl_append, List.foldl_cons]
    rw [List.map_append] at hnd
    have h1 := rewrite_foldl_all_valid decode em scrapers pre preDocs ⟨[], [], 0⟩ hpre
      (by simpa using (List.nodup_append.mp hnd).1)
      (fun d hd => hdisc d (List.mem_append.mpr (Or.inl hd)))
    rw [h1]
    have h2 : rewriteStep decode em scrapers
        ⟨[] ++ pre, [] ++ preDocs.map (fun d => d.version_id), 0⟩ bad =
        ⟨[] ++ pre, [] ++ preDocs.map (fun d => d.version_id), 1⟩ := by
      simp only [rewriteStep, hbad]
    rw [h2]
    have h3 := rewrite_foldl_all_valid decode em scrapers post postDocs
      ⟨[] ++ pre, [] ++ preDocs.map (fun d => d.version_id), 1⟩ hpost
      (by simpa using hnd)
      (fun d hd => hdisc d (List.mem_append.mpr (Or.inr hd)))
    rw [h3]
    simp [List.map_append]
  · intro corpus
    simpa using rewrite_foldl_warnings decode em scrapers corpus ⟨[], [], 0⟩

/-- Witness for C3: the corpus `[0, 1, 2]` whose middle line is malformed
rewrites to exactly the two valid lines with one warning. -/
theorem claim3_corruption_tolerance_witness :
    corpusRewrite sampleDecode (flattenEntries [sampleEntryA, sampleEntryB]) ["s"] [0, 1, 2] =
      ⟨[0, 2], ["s:1", "s:2"], 1⟩ :=
  (claim3_corruption_tolerance sampleDecode (flattenEntries [sampleEntryA, sampleEntryB])
    ["s"] [0] [2] 1 [sampleDocA] [sampleDocB] rfl rfl rfl (by decide) (by decide)).1

/-- C10: the corpus rewrite writes survivors byte-for-byte — the lines of
the rewritten corpus form a sublist of the original corpus lines (each
survivor is an original encoded line, in original order, never a
re-encoding of the decoded document). -/
theorem claim10_byte_for_byte {L : Type} (decode : L → Option Document)
    (em : List (String × Entry)) (scrapers : List String) (corpus : List L) :
    (corpusRewrite decode em scrapers corpus).kept.Sublist corpus := by
  simpa using rewrite_foldl_kept_sublist decode em scrapers corpus ⟨[], [], 0⟩

/-- A re-raise (`none`) of the retry handler only happens when the
cumulative elapsed wait strictly exceeds the stop threshold. -/
theorem onRetryError_none (stop maxw base : ℚ) (s : RetryState) (j : ℚ)
    (h : onRetryError stop maxw base s j = none) : stop < s.elapsed := by
  by_cases hlt : stop < s.elapsed
  · exact hlt
  · simp only [onRetryError, if_neg hlt] at h
    exact Option.noConfusion h

/-- With the default configuration, every accepted retry adds at least
`5/8` of a second to the cumulative elapsed wait (the pre-jitter wait is at
least `wait_base / 2 = 5/8` and the cap is far larger). -/
theorem onRetryError_progress (s : RetryState) (j : ℚ) (hj : 0 ≤ j)
    (s2 : RetryState)
    (h : onRetryError stop_after_waiting max_wait wait_base s j = some s2) :
    s.elapsed + 5/8 ≤ s2.elapsed := by
  by_cases hlt : stop_after_waiting < s.elapsed
  · simp only [onRetryError, if_pos hlt] at h
    exact Option.noConfusion h
  · simp only [onRetryError, if_neg hlt, Option.some.injEq] at h
    have h1 : (1 : ℚ) ≤ wait_base := by norm_num [wait_base]
    have h2 : wait_base ≤ wait_base ^ (s.attempt + 1) :=
      le_self_pow₀ h1 (Nat.succ_ne_zero _)
    have h3 : (5/8 : ℚ) ≤ wait_base ^ (s.attempt + 1) / 2 + j := by
      have hw : (5/4 : ℚ) ≤ wait_base ^ (s.attempt + 1) :=
        le_trans (by norm_num [wait_base]) h2
      linarith
    have h4 : (5/8 : ℚ) ≤ max_wait := by norm_num [max_wait]
    have h5 := le_min h3 h4
    rw [← h]
    dsimp only
    linarith

/-- If the fueled retry loop reports a raise, the final cumulative wait
strictly exceeds the stop threshold: the error is raised exactly once the
tracked wait passes the ceiling. -/
theorem retryLoop_raises_past_ceiling (stop maxw base : ℚ) (jit : Nat → ℚ) :
    ∀ (fuel : Nat) (s : RetryState) (n : Nat) (e : ℚ),
      retryLoop stop maxw base jit fuel s = some (n, e) → stop < e := by
  intro fuel
  induction fuel with
  | zero => intro s n e h; cases h
  | succ f ih =>
    intro s n e h
    cases ho : onRetryError stop maxw base s (jit (s.attempt + 1)) with
    | none =>
      simp only [retryLoop, ho, Option.some.injEq, Prod.mk.injEq] at h
      rw [← h.2]
      exact onRetryError_none stop maxw base s _ ho
    | some s2 =>
      simp only [retryLoop, ho] at h
      exact ih s2 n e h

/-- The fueled retry loop under default configuration raises within the
given fuel as soon as the fuel times the minimum per-retry wait pushes the
elapsed total past the ceiling: fuel `f + 1` suffices whenever
`stop_after_waiting < elapsed + (5/8) * f`. -/
theorem retryLoop_terminates (jit : Nat → ℚ) (hj : ∀ n, 0 ≤ jit n) :
    ∀ (f : Nat) (s : RetryState),
      stop_after_waiting < s.elapsed + (5/8) * (f : ℚ) →
      (retryLoop stop_after_waiting max_wait wait_base jit (f + 1) s).isSome := by
  intro f
  induction f with
  | zero =>
    intro s hbound
    have hlt : stop_after_waiting < s.elapsed := by push_cast at hbound; linarith
    have ho : onRetryError stop_after_waiting max_wait wait_base s
        (jit (s.attempt + 1)) = none := by
      simp only [onRetryError, if_pos hlt]
    simp [retryLoop, ho]
  | succ f ih =>
    intro s hbound
    by_cases hlt : stop_after_waiting < s.elapsed
    · have ho : onRetryError stop_after_waiting max_wait wait_base s
          (jit (s.attempt + 1)) = none := by
        simp only [onRetryError, if_pos hlt]
      simp [retryLoop, ho]
    · have ho : onRetryError stop_after_waiting max_wait wait_base s
          (jit (s.attempt + 1)) =
          some ⟨s.attempt + 1, s.elapsed +
            min (wait_base ^ (s.attempt + 1) / 2 + jit (s.attempt + 1)) max_wait⟩ := by
        simp only [onRetryError, if_neg hlt]
      have hprog := onRetryError_progress s (jit (s.attempt + 1)) (hj _) _ ho
      simp only [retryLoop, ho]
      apply ih
      dsimp only at hprog ⊢
      push_cast at hbound ⊢
      linarith

/-- C4: backoff policy — under the defaults of `Scraper.__init__`
(`wait_base = 1.25`, `max_wait = 150` seconds, `stop_after_waiting = 900`
seconds) the retry handler raises the caught error exactly when the tracked
cumulative wait exceeds the stop threshold, and otherwise waits
`wait_base ^ n / 2` seconds plus the jitter, capped at the maximum
per-attempt wait, adding the wait to the cumulative total (`n` being the
bumped attempt counter); a jitter drawn from `[0, wait_base ^ n / 2]` keeps
the uncapped wait between `wait_base ^ n / 2` and `wait_base ^ n`. -/
theorem claim4_backoff_policy :
    wait_base = 1.25 ∧ max_wait = 150 ∧ stop_after_waiting = 900 ∧
    (∀ (s : RetryState) (j : ℚ),
      onRetryError stop_after_waiting max_wait wait_base s j =
        if stop_after_waiting < s.elapsed then none
        else some ⟨s.attempt + 1,
          s.elapsed + min (wait_base ^ (s.attempt + 1) / 2 + j) max_wait⟩) ∧
    (∀ (n : Nat) (j : ℚ), 0 ≤ j → j ≤ wait_base ^ n / 2 →
      wait_base ^ n / 2 ≤ wait_base ^ n / 2 + j ∧
      wait_base ^ n / 2 + j ≤ wait_base ^ n) := by
  refine ⟨rfl, by norm_num [max_wait], by norm_num [stop_after_waiting],
    fun s j => rfl, fun n j h0 h1 => ⟨by linarith, by linarith⟩⟩

/-- Witness for C4: from a fresh state the handler retries after waiting
`min (wait_base / 2) max_wait` seconds; past the ceiling (at 901 seconds
elapsed) it raises; and a zero jitter keeps the uncapped wait within its
band. -/
theorem claim4_backoff_policy_witness :
    onRetryError stop_after_waiting max_wait wait_base ⟨0, 0⟩ 0 =
      some ⟨1, 0 + min (wait_base ^ 1 / 2 + 0) max_wait⟩ ∧
    onRetryError stop_after_waiting max_wait wait_base ⟨3, 901⟩ 0 = none ∧
    wait_base ^ 2 / 2 + 0 ≤ wait_base ^ 2 := by
  refine ⟨?_, ?_,
    (claim4_backoff_policy.2.2.2.2 2 0 le_rfl (by norm_num [wait_base])).2⟩
  · rw [claim4_backoff_policy.2.2.2.1 ⟨0, 0⟩ 0]
    norm_num [stop_after_waiting]
  · rw [claim4_backoff_policy.2.2.2.1 ⟨3, 901⟩ 0]
    norm_num [stop_after_waiting]

/-- C5: retry bound — when every attempt fails with a retryable condition
(any non-negative jitter sequence), the deterministic capped backoff
schedule is non-decreasing in the attempt number, and the retry loop
raises the caught error after finitely many attempts (fuel 1442 always
suffices under the default configuration), precisely with its cumulative
tracked wait beyond the stop-after-waiting ceiling — it never retries
forever. -/
theorem claim5_retry_bound (jit : Nat → ℚ) (hj : ∀ n, 0 ≤ jit n) :
    (∀ n : Nat, min (wait_base ^ (n + 1) / 2) max_wait ≤
      min (wait_base ^ (n + 2) / 2) max_wait) ∧
    ∃ n e, retryLoop stop_after_waiting max_wait wait_base jit 1442 ⟨0, 0⟩ =
      some (n, e) ∧ stop_after_waiting < e := by
  constructor
  · intro n
    refine min_le_min ?_ le_rfl
    have h1 : (1 : ℚ) ≤ wait_base := by norm_num [wait_base]
    have h2 := pow_le_pow_right₀ h1 (by omega : n + 1 ≤ n + 2)
    linarith
  · have hterm := retryLoop_terminates jit hj 1441 ⟨0, 0⟩ (by norm_num [stop_after_waiting])
    obtain ⟨⟨n, e⟩, h⟩ := Option.isSome_iff_exists.mp hterm
    exact ⟨n, e, h,
      retryLoop_raises_past_ceiling stop_after_waiting max_wait wait_base jit 1442 ⟨0, 0⟩
        n e h⟩

/-- Witness for C5: with zero jitter throughout, the loop raises within
fuel 1442 with its tracked wait beyond the ceiling. -/
theorem claim5_retry_bound_witness :
    ∃ n e, retryLoop stop_after_waiting max_wait wait_base (fun _ => 0) 1442 ⟨0, 0⟩ =
      some (n, e) ∧ stop_after_waiting < e :=
  (claim5_retry_bound (fun _ => 0) (fun _ => le_rfl)).2

/-- C6: staleness reconciliation — given a persisted index log and the
current discovery-request set (the policy not being "always refresh", which
instead deletes the log wholesale), the age test keeps everything under a
"never refresh" policy and otherwise batches indexed within the duration;
the log afterwards holds exactly the batches whose request is in the
discovery set and which pass the age test; the log file is rewritten iff
the filter dropped some batch; a request is returned as unindexed iff it is
a discovery request carried by no surviving batch; and a batch whose
request is absent from the discovery set never survives. -/
theorem claim6_staleness (policy : RefreshInterval) (now : ℚ)
    (index : List Entries) (index_reqs : Finset Request)
    (hp : policy ≠ .always) :
    (∀ t : ℚ, keepByAge .never now t = true) ∧
    (∀ d t : ℚ, keepByAge (.interval d) now t = decide (now - t ≤ d)) ∧
    (get_unindexed_index_reqs policy now (some index) index_reqs).fileAfter =
      some (index.filter (fun e =>
        decide (e.request ∈ index_reqs) && keepByAge policy now e.when_indexed)) ∧
    ((get_unindexed_index_reqs policy now (some index) index_reqs).rewritten = true ↔
      index.filter (fun e =>
        decide (e.request ∈ index_reqs) && keepByAge policy now e.when_indexed) ≠ index) ∧
    (∀ r : Request,
      r ∈ (get_unindexed_index_reqs policy now (some index) index_reqs).unindexed ↔
        r ∈ index_reqs ∧ ∀ e ∈ index.filter (fun e =>
          decide (e.request ∈ index_reqs) && keepByAge policy now e.when_indexed),
          e.request ≠ r) ∧
    (∀ e ∈ index, e.request ∉ index_reqs →
      e ∉ index.filter (fun e =>
        decide (e.request ∈ index_reqs) && keepByAge policy now e.when_indexed)) := by
  have hmemreq : ∀ e ∈ index.filter (fun e =>
      decide (e.request ∈ index_reqs) && keepByAge policy now e.when_indexed),
      e.request ∈ index_reqs := by
    intro e he
    have h2 := (List.mem_filter.mp he).2
    rw [Bool.and_eq_true] at h2
    exact of_decide_eq_true h2.1
  have hun : ∀ r : Request,
      r ∈ index_reqs \ ((index.filter (fun e =>
        decide (e.request ∈ index_reqs) && keepByAge policy now e.when_indexed)).map
          (fun e => e.request)).toFinset ↔
      r ∈ index_reqs ∧ ∀ e ∈ index.filter (fun e =>
        decide (e.request ∈ index_reqs) && keepByAge policy now e.when_indexed),
        e.request ≠ r := by
    intro r
    rw [Finset.mem_sdiff, List.mem_toFinset]
    constructor
    · rintro ⟨h1, h2⟩
      exact ⟨h1, fun e he hcontra => h2 (List.mem_map.mpr ⟨e, he, hcontra⟩)⟩
    · rintro ⟨h1, h2⟩
      refine ⟨h1, fun hmem => ?_⟩
      obtain ⟨e, he, hre⟩ := List.mem_map.mp hmem
      exact h2 e he hre
  refine ⟨fun t => rfl, fun d t => rfl, ?_, ?_, ?_, ?_⟩
  · by_cases hl : (index.filter (fun e =>
        decide (e.request ∈ index_reqs) && keepByAge policy now e.when_indexed)).length ≠
        index.length
    · simp only [get_unindexed_index_reqs, if_neg hp, if_pos hl]
    · simp only [get_unindexed_index_reqs, if_neg hp, if_neg hl]
      rw [(List.filter_sublist index).eq_of_length (not_not.mp (fun h => hl h))]
  · by_cases hl : (index.filter (fun e =>
        decide (e.request ∈ index_reqs) && keepByAge policy now e.when_indexed)).length ≠
        index.length
    · simp only [get_unindexed_index_reqs, if_neg hp, if_pos hl, true_iff]
      intro hcontra
      exact hl (by rw [hcontra])
    · simp only [get_unindexed_index_reqs, if_neg hp, if_neg hl, Bool.false_eq_true,
        false_iff, not_not]
      exact (List.filter_sublist index).eq_of_length (not_not.mp (fun h => hl h))
  · intro r
    by_cases hl : (index.filter (fun e =>
        decide (e.request ∈ index_reqs) && keepByAge policy now e.when_indexed)).length ≠
        index.length
    · simp only [get_unindexed_index_reqs, if_neg hp, if_pos hl]
      exact hun r
    · simp only [get_unindexed_index_reqs, if_neg hp, if_neg hl]
      exact hun r
  · intro e he hreq hmem
    exact hreq (hmemreq e hmem)

/-- Witness for C6: with a ten-second refresh interval at time 100, the
two-batch sample log keeps exactly the batch whose request is still
discovered and fresh; the stale batch for `sampleReqB` is dropped. -/
theorem claim6_staleness_witness :
    (get_unindexed_index_reqs (.interval 10) 100 (some sampleIndex)
        {sampleReq}).fileAfter = some [⟨sampleReq, [], 95⟩] :=
  ((claim6_staleness (.interval 10) 100 sampleIndex {sampleReq}
    (by decide)).2.2.1).trans
    (by norm_num [sampleIndex, sampleReq, sampleReqB, keepByAge])

/-- C7 counterexample: the corpus record produced for a `Document` carries
no `mime` and no `date` field — the claim that every `Document` record
carries `mime` and `date` fields fails on this concrete document. -/
theorem claim7_counterexample :
    ¬ ("mime" ∈ (documentFields sampleDocA).map Prod.fst ∧
       "date" ∈ (documentFields sampleDocA).map Prod.fst) := by
  decide

/-- C7 (amended): every `Document` — the final corpus record, one per line
of `corpus.jsonl` — carries exactly the fields `version_id`, `type`,
`jurisdiction`, `source`, `citation`, `url`, `when_scraped` and full
`text`, in that order; it carries no `mime` and no `date` field. -/
theorem claim7_document_shape (d : Document) :
    (documentFields d).map Prod.fst =
      ["version_id", "type", "jurisdiction", "source", "citation", "url",
        "when_scraped", "text"] ∧
    "mime" ∉ (documentFields d).map Prod.fst ∧
    "date" ∉ (documentFields d).map Prod.fst := by
  have h : (documentFields d).map Prod.fst =
      ["version_id", "type", "jurisdiction", "source", "citation", "url",
        "when_scraped", "text"] := rfl
  refine ⟨h, ?_, ?_⟩ <;> rw [h] <;> decide

/-- C8: the `open`-method branch of `Scraper.get` constructs its `Response`
with only the `encoding` keyword, while `Response.__new__`/`__init__`
require `type` and `status` as keyword-only arguments with no defaults —
so for every open-method request the branch raises `TypeError` instead of
returning a `Response`; a call supplying all three annotations is the one
that would satisfy the `Response` contract. -/
theorem claim8_open_method_type_error (fileBytes : String) (req : Request) :
    getOpenBranch fileBytes req =
      Except.error "TypeError: Response() missing required keyword-only arguments" ∧
    ∀ (e t : String) (st : Int),
      buildResponse fileBytes (some e) (some t) (some st) =
        Except.ok ⟨fileBytes, e, t, st⟩ :=
  ⟨rfl, fun _e _t _st => rfl⟩

end OALC
